import Mathlib

/-!
Verification development for the indicator / chart-overlay core of
`bitcoin-quant` (`src/main.py`).

The Python code computes over IEEE floats via pandas; we embed the exact
algorithms pandas executes over an abstract linearly ordered field (`ℚ` for
executable witnesses, `ℝ` where a square root is required).  An `Option α`
value models one cell of a pandas Series: `some x` is the finite value `x`,
`none` models any non-finite cell (NaN or ±infinity) — every arithmetic
operation used by the code maps non-finite operands to non-finite results,
so this abstraction is sound for the properties considered here.

Pandas semantics embedded below (all defaults as called by `src/main.py`):
* `Series.rolling(window=w)` has `min_periods = w`: an output position is
  NaN until a full window of `w` non-NaN values is available, and NaN if
  any cell of its window is non-finite.
* `Series.rolling(w).std()` uses `ddof=1` (sample standard deviation).
* `Series.ewm(span=s, adjust=False).mean()` uses `alpha = 2/(s+1)`,
  `ignore_na=False`, `min_periods=0` (internally `max(min_periods,1)`),
  per `pandas._libs.window.aggregations.ewm`.
* `Index.get_indexer([t], method="nearest")` computes pad and backfill
  indexers and selects via `np.where(left_dist < right_dist | right == -1,
  left, right)` for a monotonically increasing index (`operator.lt`).
-/

set_option maxRecDepth 4096

/-- Minimum of a list; junk value on `[]` (never used: rolling windows are
non-empty).  Mirrors `numpy.min` over a window. -/
def listMin {α : Type} [LinearOrder α] [Inhabited α] : List α → α
  | [] => default
  | x :: xs => xs.foldl min x

/-- Maximum of a list; junk value on `[]`.  Mirrors `numpy.max` over a window. -/
def listMax {α : Type} [LinearOrder α] [Inhabited α] : List α → α
  | [] => default
  | x :: xs => xs.foldl max x

/-- Arithmetic mean of a list, `sum / length`.  Mirrors `numpy.mean` over a
window (windows are non-empty, so the `0/0` case never arises). -/
def listMean {α : Type} [LinearOrderedField α] (l : List α) : α :=
  l.sum / (l.length : α)

/-- Sample variance (`ddof = 1`, the pandas `rolling().std()` default,
squared): `Σ (x - mean)² / (n - 1)`. -/
def listVarSample {α : Type} [LinearOrderedField α] (l : List α) : α :=
  (l.map (fun x => (x - listMean l) ^ 2)).sum / ((l.length : α) - 1)

/-- Collect a list of optional cells into an optional list: `none` as soon as
one cell is non-finite.  This models the pandas `min_periods = window`
convention where any non-finite cell invalidates the whole window. -/
def allSome {α : Type} : List (Option α) → Option (List α)
  | [] => some []
  | none :: _ => none
  | some x :: xs => (allSome xs).map (x :: ·)

/-- The length-`w` window of cells ending at position `i` (positions
`i+1-w .. i`), or `none` during the initial ramp-up `i < w-1` or when any
cell in the window is non-finite. -/
def windowAt {α : Type} (w : ℕ) (xs : List (Option α)) (i : ℕ) : Option (List α) :=
  if i + 1 < w then none else allSome ((xs.drop (i + 1 - w)).take w)

/-- `Series.rolling(window=w).f()` with the default `min_periods = w`:
position `i` of the output holds `f` of the window ending at `i`, or NaN
(`none`) when that window is incomplete or touches a non-finite cell. -/
def rolling {α : Type} (f : List α → α) (w : ℕ) (xs : List (Option α)) :
    List (Option α) :=
  (List.range xs.length).map (fun i => (windowAt w xs i).map f)

/-- Elementwise combination of two optional cells; non-finite operands give a
non-finite result, as float arithmetic does. -/
def omap2 {α β γ : Type} (f : α → β → γ) : Option α → Option β → Option γ
  | some x, some y => some (f x y)
  | _, _ => none

/-- One step of the pandas `ewm(adjust=False, ignore_na=False).mean()` state
machine (`pandas/_libs/window/aggregations.pyx`, function `ewm`): state is
the running weighted average (NaN until the first observation) and the old
weight.  On an observation the old weight first decays by `1-α`, the average
updates to `(old_wt·avg + α·cur)/(old_wt + α)` (skipped verbatim by pandas
when `avg = cur`), and the old weight resets to `1`; on a missing value the
weight decays and the average is unchanged.  The emitted output cell always
equals the post-step average. -/
def ewmStep {α : Type} [LinearOrderedField α] (alpha : α)
    (avg : Option α) (oldWt : α) (cur : Option α) : Option α × α :=
  match avg, cur with
  | some m, some c =>
      let ow := oldWt * (1 - alpha)
      (some (if m = c then m else (ow * m + alpha * c) / (ow + alpha)), 1)
  | some m, none => (some m, oldWt * (1 - alpha))
  | none, some c => (some c, 1)
  | none, none => (none, oldWt)

/-- The pandas `ewm(..., adjust=False).mean()` loop over the whole series. -/
def ewmLoop {α : Type} [LinearOrderedField α] (alpha : α)
    (avg : Option α) (oldWt : α) : List (Option α) → List (Option α)
  | [] => []
  | c :: rest =>
      let s := ewmStep alpha avg oldWt c
      s.1 :: ewmLoop alpha s.1 s.2 rest

/-- `calculate_ema` (src/main.py:80-91): `series.ewm(span=period,
adjust=False).mean()`, with `alpha = 2/(period+1)`. -/
def calculate_ema {α : Type} [LinearOrderedField α]
    (series : List (Option α)) (period : ℕ) : List (Option α) :=
  ewmLoop (2 / ((period : α) + 1)) none 1 series

/-- `calculate_bollinger_bands` (src/main.py:94-112):
`middle = series.rolling(period).mean()`, `std = series.rolling(period).std()`
(pandas default `ddof=1`, i.e. the square root of the sample variance),
`upper = middle + std*std_dev`, `lower = middle - std*std_dev`.
Returns `(upper, middle, lower)` as in the source. -/
noncomputable def calculate_bollinger_bands (series : List (Option ℝ))
    (period : ℕ) (std_dev : ℝ) :
    List (Option ℝ) × List (Option ℝ) × List (Option ℝ) :=
  let middle_band := rolling listMean period series
  let std := (rolling listVarSample period series).map (Option.map Real.sqrt)
  let upper_band := List.zipWith (omap2 (fun m s => m + s * std_dev)) middle_band std
  let lower_band := List.zipWith (omap2 (fun m s => m - s * std_dev)) middle_band std
  (upper_band, middle_band, lower_band)

/-- The raw %K of `calculate_stochastic` (src/main.py:137-141):
`100 * ((close - low.rolling(k).min()) / (high.rolling(k).max() - low.rolling(k).min()))`.
When the denominator is zero, float division yields NaN (`0/0`) or ±infinity,
i.e. a non-finite cell, modelled by `none`. -/
def stochRawK {α : Type} [LinearOrderedField α] [Inhabited α]
    (high low close : List (Option α)) (k_period : ℕ) : List (Option α) :=
  let lowest_low := rolling listMin k_period low
  let highest_high := rolling listMax k_period high
  List.zipWith
    (fun c lh =>
      match c, lh.1, lh.2 with
      | some c, some ll, some hh =>
          if hh - ll = 0 then none else some (100 * ((c - ll) / (hh - ll)))
      | _, _, _ => none)
    close (lowest_low.zip highest_high)

/-- `calculate_stochastic` (src/main.py:115-149): raw %K as above, then
`k_percent = raw_k.rolling(smooth_k).mean()` and
`d_percent = k_percent.rolling(d_period).mean()`.  Returns `(%K, %D)`. -/
def calculate_stochastic {α : Type} [LinearOrderedField α] [Inhabited α]
    (high low close : List (Option α))
    (k_period d_period smooth_k : ℕ) : List (Option α) × List (Option α) :=
  let raw_k := stochRawK high low close k_period
  let k_percent := rolling listMean smooth_k raw_k
  let d_percent := rolling listMean d_period k_percent
  (k_percent, d_percent)

/-- Modelled from the spec: tail of the EMA recurrence
`ema[i] = alpha*series[i] + (1-alpha)*ema[i-1]`, continuing from `prev`. -/
def emaSpecFrom {α : Type} [LinearOrderedField α] (alpha prev : α) :
    List α → List α
  | [] => []
  | c :: rest => (alpha * c + (1 - alpha) * prev) ::
      emaSpecFrom alpha (alpha * c + (1 - alpha) * prev) rest

/-- Modelled from the spec: the full EMA recurrence with seed
`ema[0] = series[0]` (the "adjust=false" convention). -/
def emaSpecRecurrence {α : Type} [LinearOrderedField α] (alpha : α) :
    List α → List α
  | [] => []
  | c :: rest => c :: emaSpecFrom alpha c rest

theorem ewmLoop_map_some {α : Type} [LinearOrderedField α] (alpha : α) :
    ∀ (rest : List α) (m : α),
      ewmLoop alpha (some m) 1 (rest.map some) =
        (emaSpecFrom alpha m rest).map some := by
  intro rest
  induction rest with
  | nil => intro m; rfl
  | cons c rest ih =>
      intro m
      have hv : (if m = c then m
            else (1 * (1 - alpha) * m + alpha * c) / (1 * (1 - alpha) + alpha))
          = alpha * c + (1 - alpha) * m := by
        by_cases h : m = c
        · subst h; rw [if_pos rfl]; ring
        · rw [if_neg h]
          have hden : 1 * (1 - alpha) + alpha = 1 := by ring
          rw [hden, div_one]; ring
      simp only [List.map_cons, ewmLoop, ewmStep, emaSpecFrom]
      rw [hv, ih]

/-- C1: for every series of finite reals and every span ≥ 1, the code's EMA
(`series.ewm(span=period, adjust=False).mean()`) equals the spec recurrence
`ema[0] = series[0]`, `ema[i] = alpha*series[i] + (1-alpha)*ema[i-1]` with
`alpha = 2/(span+1)`, exactly and at every position (no ramp-up gap). -/
theorem ema_matches_recurrence {α : Type} [LinearOrderedField α]
    (series : List α) (period : ℕ) (hne : series ≠ []) (hspan : 1 ≤ period) :
    calculate_ema (series.map some) period =
      (emaSpecRecurrence (2 / ((period : α) + 1)) series).map some := by
  cases series with
  | nil => exact absurd rfl hne
  | cons c rest =>
      simp only [calculate_ema, List.map_cons, ewmLoop, ewmStep,
        emaSpecRecurrence]
      rw [ewmLoop_map_some]

/-- Witness for C1: span 13 over `[1,2,...,20]`; the code's EMA equals the
recurrence there, whose first two values are `1` and `8/7 = (2/14)*2+(12/14)*1`
(exact, hence within tolerance 1e-9). -/
theorem ema_matches_recurrence_witness :
    calculate_ema
        (([1, 2, 3, 4, 5, 6, 7, 8, 9, 10, 11, 12, 13, 14, 15, 16, 17, 18, 19,
          20] : List ℚ).map some) 13 =
      (emaSpecRecurrence (2 / ((13 : ℚ) + 1))
        [1, 2, 3, 4, 5, 6, 7, 8, 9, 10, 11, 12, 13, 14, 15, 16, 17, 18, 19,
          20]).map some ∧
    (emaSpecRecurrence (2 / ((13 : ℚ) + 1))
        [1, 2, 3, 4, 5, 6, 7, 8, 9, 10, 11, 12, 13, 14, 15, 16, 17, 18, 19,
          20]).take 2 = [1, 8 / 7] :=
  ⟨ema_matches_recurrence _ 13 (by decide) (by decide),
    by norm_num [emaSpecRecurrence, emaSpecFrom]⟩

theorem allSome_getElem? {α : Type} :
    ∀ {m : List (Option α)} {l : List α}, allSome m = some l →
      ∀ q : ℕ, m[q]? = (l[q]?).map some := by
  intro m
  induction m with
  | nil =>
      intro l h q
      simp only [allSome, Option.some.injEq] at h
      subst h
      simp
  | cons c rest ih =>
      intro l h q
      cases c with
      | none => simp [allSome] at h
      | some x =>
          simp only [allSome, Option.map_eq_some'] at h
          obtain ⟨l', hl', rfl⟩ := h
          cases q with
          | zero => simp
          | succ q => simpa using ih hl' q

theorem allSome_length {α : Type} :
    ∀ {m : List (Option α)} {l : List α}, allSome m = some l →
      l.length = m.length := by
  intro m
  induction m with
  | nil =>
      intro l h
      simp only [allSome, Option.some.injEq] at h
      subst h; rfl
  | cons c rest ih =>
      intro l h
      cases c with
      | none => simp [allSome] at h
      | some x =>
          simp only [allSome, Option.map_eq_some'] at h
          obtain ⟨l', hl', rfl⟩ := h
          simpa using ih hl'

theorem allSome_mem {α : Type} :
    ∀ {m : List (Option α)} {l : List α}, allSome m = some l →
      ∀ {v : α}, v ∈ l → some v ∈ m := by
  intro m
  induction m with
  | nil =>
      intro l h v hv
      simp only [allSome, Option.some.injEq] at h
      subst h; simp at hv
  | cons c rest ih =>
      intro l h v hv
      cases c with
      | none => simp [allSome] at h
      | some x =>
          simp only [allSome, Option.map_eq_some'] at h
          obtain ⟨l', hl', rfl⟩ := h
          rcases List.mem_cons.1 hv with rfl | hv'
          · exact List.mem_cons_self _ _
          · exact List.mem_cons_of_mem _ (ih hl' hv')

theorem rolling_length {α : Type} (f : List α → α) (w : ℕ)
    (xs : List (Option α)) : (rolling f w xs).length = xs.length := by
  simp [rolling]

theorem rolling_getD {α : Type} (f : List α → α) (w : ℕ)
    (xs : List (Option α)) (i : ℕ) (h : i < xs.length) :
    (rolling f w xs).getD i none = (windowAt w xs i).map f := by
  unfold rolling
  rw [List.getD_eq_getElem?_getD, List.getElem?_map, List.getElem?_range h]
  rfl

theorem getD_entry_some {α : Type} {xs : List (Option α)} {j : ℕ} {o : Option α}
    (h : xs.getD j none = o) (hj : j < xs.length) : xs[j]? = some o := by
  rw [List.getD_eq_getElem?_getD, List.getElem?_eq_getElem hj] at h
  rw [List.getElem?_eq_getElem hj]
  simpa using h

/-- A rolling output is `none` at every position whose window includes a
non-finite input cell: pandas `min_periods = window` does not skip or compact
missing values. -/
theorem rolling_entry_none {α : Type} (f : List α → α) (w : ℕ)
    (xs : List (Option α)) {i j : ℕ}
    (hj : xs.getD j none = none) (hji : j ≤ i) (hiw : i < j + w)
    (hi : i < xs.length) :
    (rolling f w xs).getD i none = none := by
  rw [rolling_getD f w xs i hi]
  unfold windowAt
  by_cases hramp : i + 1 < w
  · rw [if_pos hramp]; rfl
  · rw [if_neg hramp]
    cases hall : allSome ((xs.drop (i + 1 - w)).take w) with
    | none => rfl
    | some l =>
        exfalso
        have hjlen : j < xs.length := lt_of_le_of_lt hji hi
        have hxj : xs[j]? = some none := getD_entry_some hj hjlen
        have hseg : ((xs.drop (i + 1 - w)).take w)[j - (i + 1 - w)]? =
            some none := by
          rw [List.getElem?_take, if_pos (by omega : j - (i + 1 - w) < w),
            List.getElem?_drop]
          rw [show i + 1 - w + (j - (i + 1 - w)) = j by omega]
          exact hxj
        rw [allSome_getElem? hall] at hseg
        cases hh : l[j - (i + 1 - w)]? <;> rw [hh] at hseg <;> simp at hseg

theorem ewmStep_missing {α : Type} [LinearOrderedField α] (alpha : α)
    (avg : Option α) (oldWt : α) : (ewmStep alpha avg oldWt none).1 = avg := by
  cases avg <;> rfl

/-- The pandas ewm loop repeats the previous output at a missing input cell
(the running average is unchanged, only the weight decays). -/
theorem ewmLoop_missing_repeats {α : Type} [LinearOrderedField α] (alpha : α) :
    ∀ (xs : List (Option α)) (avg : Option α) (ow : α) (i : ℕ),
      i + 1 < xs.length → xs.getD (i + 1) none = none →
      (ewmLoop alpha avg ow xs).getD (i + 1) none =
        (ewmLoop alpha avg ow xs).getD i none := by
  intro xs
  induction xs with
  | nil => intro avg ow i h; simp at h
  | cons c rest ih =>
      intro avg ow i hlen hnone
      cases i with
      | zero =>
          cases rest with
          | nil => simp at hlen
          | cons c2 r2 =>
              have hc2 : c2 = none := by simpa [List.getD] using hnone
              subst hc2
              simp only [ewmLoop, List.getD_cons_succ, List.getD_cons_zero]
              exact ewmStep_missing alpha _ _
      | succ k =>
          simp only [ewmLoop, List.getD_cons_succ]
          exact ih _ _ k (by simpa using hlen) (by simpa using hnone)

/-- C6 counterexample: on the series `[1, NaN, 3]` the code's EMA
(pandas `ewm(span=13, adjust=False).mean()`, `ignore_na=False`) is DEFINED at
the missing position 1 (it repeats the previous average, `1`) and at position
2 (where the decayed weights give `57/43`), refuting the claim that
`EMA(series, span)[i]` is undefined for every `i ≥ j` when `series[j]` is
missing. -/
theorem ema_nan_not_propagated_counterexample :
    (calculate_ema [some (1 : ℚ), none, some 3] 13).getD 1 none = some 1 ∧
    (calculate_ema [some (1 : ℚ), none, some 3] 13).getD 2 none =
      some (57 / 43) := by
  constructor <;>
    norm_num [calculate_ema, ewmLoop, ewmStep, List.getD_cons_zero,
      List.getD_cons_succ]

/-- C6 amended: rolling-window outputs (the Bollinger middle band, standard
deviation, and the stochastic smoothing passes are all `rolling`
applications) are undefined at every position whose window includes a
missing/non-finite input — not skipped or compacted; the EMA, however, does
NOT propagate missing values: pandas `ewm` skips them, so the EMA output at a
missing input position repeats the previous position's output (hence stays
defined once any earlier observation exists). -/
theorem missing_value_propagation_amended {α : Type} [LinearOrderedField α] :
    (∀ (f : List α → α) (w : ℕ) (xs : List (Option α)) (i j : ℕ),
        xs.getD j none = none → j ≤ i → i < j + w → i < xs.length →
        (rolling f w xs).getD i none = none)
    ∧ (∀ (xs : List (Option α)) (period i : ℕ),
        i + 1 < xs.length → xs.getD (i + 1) none = none →
        (calculate_ema xs period).getD (i + 1) none =
          (calculate_ema xs period).getD i none) :=
  ⟨fun f w xs i j hj hji hiw hi => rolling_entry_none f w xs hj hji hiw hi,
   fun xs period i h1 h2 => ewmLoop_missing_repeats _ xs none 1 i h1 h2⟩

/-- Witness for the amended C6 at the concrete series `[1, NaN, 3]`:
the rolling mean (window 2) is undefined at position 1, and the EMA output at
position 1 equals the output at position 0. -/
theorem missing_value_propagation_amended_witness :
    (rolling listMean 2 [some (1 : ℚ), none, some 3]).getD 1 none = none ∧
    (calculate_ema [some (1 : ℚ), none, some 3] 13).getD 1 none =
      (calculate_ema [some (1 : ℚ), none, some 3] 13).getD 0 none :=
  ⟨(missing_value_propagation_amended (α := ℚ)).1 listMean 2 _ 1 1 rfl
      (by decide) (by decide) (by decide),
    (missing_value_propagation_amended (α := ℚ)).2 _ 13 0 (by decide) rfl⟩

theorem foldl_min_le_init {α : Type} [LinearOrder α] :
    ∀ (t : List α) (x : α), t.foldl min x ≤ x := by
  intro t
  induction t with
  | nil => intro x; exact le_refl x
  | cons b t ih =>
      intro x
      exact le_trans (ih (min x b)) (min_le_left x b)

theorem foldl_min_le_mem {α : Type} [LinearOrder α] :
    ∀ {t : List α} {v : α} (x : α), v ∈ t → t.foldl min x ≤ v := by
  intro t
  induction t with
  | nil => intro v x hv; simp at hv
  | cons b t ih =>
      intro v x hv
      rcases List.mem_cons.1 hv with rfl | hv'
      · exact le_trans (foldl_min_le_init t (min x v)) (min_le_right x v)
      · exact ih (min x b) hv'

theorem listMin_le_of_mem {α : Type} [LinearOrder α] [Inhabited α]
    {l : List α} {v : α} (hv : v ∈ l) : listMin l ≤ v := by
  cases l with
  | nil => simp at hv
  | cons x t =>
      rcases List.mem_cons.1 hv with rfl | hv'
      · exact foldl_min_le_init t v
      · exact foldl_min_le_mem x hv'

theorem init_le_foldl_max {α : Type} [LinearOrder α] :
    ∀ (t : List α) (x : α), x ≤ t.foldl max x := by
  intro t
  induction t with
  | nil => intro x; exact le_refl x
  | cons b t ih =>
      intro x
      exact le_trans (le_max_left x b) (ih (max x b))

theorem mem_le_foldl_max {α : Type} [LinearOrder α] :
    ∀ {t : List α} {v : α} (x : α), v ∈ t → v ≤ t.foldl max x := by
  intro t
  induction t with
  | nil => intro v x hv; simp at hv
  | cons b t ih =>
      intro v x hv
      rcases List.mem_cons.1 hv with rfl | hv'
      · exact le_trans (le_max_right x v) (init_le_foldl_max t (max x v))
      · exact ih (max x b) hv'

theorem le_listMax_of_mem {α : Type} [LinearOrder α] [Inhabited α]
    {l : List α} {v : α} (hv : v ∈ l) : v ≤ listMax l := by
  cases l with
  | nil => simp at hv
  | cons x t =>
      rcases List.mem_cons.1 hv with rfl | hv'
      · exact init_le_foldl_max t v
      · exact mem_le_foldl_max x hv'

theorem listMean_bounds {α : Type} [LinearOrderedField α] {l : List α}
    {a b : α} (hne : l ≠ []) (h : ∀ v ∈ l, a ≤ v ∧ v ≤ b) :
    a ≤ listMean l ∧ listMean l ≤ b := by
  have hlen : 0 < (l.length : α) := by
    have := List.length_pos.2 hne
    exact_mod_cast this
  have hsum_lo : (l.length : α) * a ≤ l.sum := by
    have := List.card_nsmul_le_sum l a (fun x hx => (h x hx).1)
    simpa [nsmul_eq_mul] using this
  have hsum_hi : l.sum ≤ (l.length : α) * b := by
    have := List.sum_le_card_nsmul l b (fun x hx => (h x hx).2)
    simpa [nsmul_eq_mul] using this
  constructor
  · rw [listMean, le_div_iff hlen]
    calc a * (l.length : α) = (l.length : α) * a := by ring
    _ ≤ l.sum := hsum_lo
  · rw [listMean, div_le_iff hlen]
    calc l.sum ≤ (l.length : α) * b := hsum_hi
    _ = b * (l.length : α) := by ring

theorem zipWith_getD_eq_some {α β γ : Type} {g : α → β → Option γ} :
    ∀ {as : List α} {bs : List β} {i : ℕ} {v : γ},
      (List.zipWith g as bs).getD i none = some v →
      ∃ x y, as[i]? = some x ∧ bs[i]? = some y ∧ g x y = some v := by
  intro as
  induction as with
  | nil => intro bs i v h; simp [List.getD] at h
  | cons a as ih =>
      intro bs i v h
      cases bs with
      | nil => simp [List.getD] at h
      | cons b bs =>
          cases i with
          | zero =>
              refine ⟨a, b, by simp, by simp, ?_⟩
              simpa [List.getD] using h
          | succ k =>
              obtain ⟨x, y, hx, hy, hg⟩ := ih (by simpa [List.getD] using h)
              exact ⟨x, y, by simpa using hx, by simpa using hy, hg⟩

theorem getElem?_zipWith_of_lt {α β γ : Type} (g : α → β → γ) :
    ∀ (as : List α) (bs : List β) (i : ℕ),
      i < as.length → i < bs.length →
      ∃ x y, as[i]? = some x ∧ bs[i]? = some y ∧
        (List.zipWith g as bs)[i]? = some (g x y) := by
  intro as
  induction as with
  | nil => intro bs i h; simp at h
  | cons a as ih =>
      intro bs i ha hb
      cases bs with
      | nil => simp at hb
      | cons b bs =>
          cases i with
          | zero => exact ⟨a, b, by simp, by simp, by simp⟩
          | succ k =>
              obtain ⟨x, y, hx, hy, hz⟩ :=
                ih bs k (by simpa using ha) (by simpa using hb)
              exact ⟨x, y, by simpa using hx, by simpa using hy,
                by simpa using hz⟩

theorem zip_getElem?_some {α β : Type} :
    ∀ {as : List α} {bs : List β} {i : ℕ} {p : α × β},
      (as.zip bs)[i]? = some p → as[i]? = some p.1 ∧ bs[i]? = some p.2 := by
  intro as
  induction as with
  | nil => intro bs i p h; simp [List.zip] at h
  | cons a as ih =>
      intro bs i p h
      cases bs with
      | nil => simp [List.zip] at h
      | cons b bs =>
          cases i with
          | zero =>
              simp only [List.zip_cons_cons, List.getElem?_cons_zero,
                Option.some.injEq] at h
              subst h
              exact ⟨by simp, by simp⟩
          | succ k =>
              have := ih (by simpa using h)
              exact ⟨by simpa using this.1, by simpa using this.2⟩

theorem windowAt_some_facts {α : Type} {w : ℕ} {xs : List (Option α)} {i : ℕ}
    {l : List α} (h : windowAt w xs i = some l) (hi : i < xs.length)
    (hw : 1 ≤ w) :
    l.length = w ∧ (∀ v ∈ l, ∃ j, xs.getD j none = some v) ∧
      ∃ v, xs.getD i none = some v ∧ v ∈ l := by
  unfold windowAt at h
  by_cases hramp : i + 1 < w
  · rw [if_pos hramp] at h; exact absurd h (by simp)
  · rw [if_neg hramp] at h
    have hseglen : ((xs.drop (i + 1 - w)).take w).length = w := by
      simp only [List.length_take, List.length_drop]
      omega
    have hlen : l.length = w := by rw [allSome_length h, hseglen]
    refine ⟨hlen, ?_, ?_⟩
    · intro v hv
      have hmem : some v ∈ (xs.drop (i + 1 - w)).take w := allSome_mem h hv
      have hsub : ((xs.drop (i + 1 - w)).take w).Sublist xs :=
        (List.take_sublist _ _).trans (List.drop_sublist _ _)
      have hx : some v ∈ xs := hsub.mem hmem
      obtain ⟨j, hj⟩ := List.mem_iff_getElem?.1 hx
      exact ⟨j, by rw [List.getD_eq_getElem?_getD, hj]; rfl⟩
    · have hlast : w - 1 < l.length := by omega
      refine ⟨l[w - 1], ?_, List.getElem_mem hlast⟩
      have hseg : ((xs.drop (i + 1 - w)).take w)[w - 1]? =
          (l[w - 1]?).map some := allSome_getElem? h (w - 1)
      rw [List.getElem?_take, if_pos (by omega : w - 1 < w),
        List.getElem?_drop,
        show i + 1 - w + (w - 1) = i by omega] at hseg
      rw [List.getElem?_eq_getElem hlast] at hseg
      rw [List.getD_eq_getElem?_getD, hseg]
      rfl

theorem rolling_getD_some {α : Type} (f : List α → α) (w : ℕ)
    (xs : List (Option α)) {i : ℕ} {v : α}
    (h : (rolling f w xs).getD i none = some v) :
    i < xs.length ∧ ∃ l, windowAt w xs i = some l ∧ v = f l := by
  have hi : i < xs.length := by
    by_contra hge
    rw [List.getD_eq_default _ _ (by rw [rolling_length]; omega)] at h
    simp at h
  refine ⟨hi, ?_⟩
  rw [rolling_getD f w xs i hi] at h
  cases hw : windowAt w xs i with
  | none => rw [hw] at h; simp at h
  | some l =>
      rw [hw] at h
      simp only [Option.map_some', Option.some.injEq] at h
      exact ⟨l, rfl, h.symm⟩

theorem rolling_mean_bounds {α : Type} [LinearOrderedField α] {w : ℕ}
    (hw : 1 ≤ w) {xs : List (Option α)} {a b : α}
    (hbnd : ∀ j v, xs.getD j none = some v → a ≤ v ∧ v ≤ b) :
    ∀ i v, (rolling listMean w xs).getD i none = some v → a ≤ v ∧ v ≤ b := by
  intro i v h
  obtain ⟨hi, l, hwin, rfl⟩ := rolling_getD_some listMean w xs h
  obtain ⟨hlen, hent, -⟩ := windowAt_some_facts hwin hi hw
  have hne : l ≠ [] := by
    intro h0
    rw [h0] at hlen
    simp at hlen
    omega
  refine listMean_bounds hne ?_
  intro u hu
  obtain ⟨j, hj⟩ := hent u hu
  exact hbnd j u hj

theorem stochRawK_bounds {α : Type} [LinearOrderedField α] [Inhabited α]
    {high low close : List (Option α)} {k : ℕ} (hk : 1 ≤ k)
    (valid : ∀ j lv cv hv, low.getD j none = some lv →
      close.getD j none = some cv → high.getD j none = some hv →
      lv ≤ cv ∧ cv ≤ hv) :
    ∀ i v, (stochRawK high low close k).getD i none = some v →
      0 ≤ v ∧ v ≤ 100 := by
  intro i v h
  unfold stochRawK at h
  obtain ⟨c, p, hc, hp, hg⟩ := zipWith_getD_eq_some h
  obtain ⟨hp1, hp2⟩ := zip_getElem?_some hp
  cases c with
  | none => simp at hg
  | some cv =>
      cases hll : p.1 with
      | none => rw [hll] at hg; simp at hg
      | some llv =>
          cases hhh : p.2 with
          | none => rw [hll, hhh] at hg; simp at hg
          | some hhv =>
              rw [hll, hhh] at hg
              have hg' : (if hhv - llv = 0 then none
                  else some (100 * ((cv - llv) / (hhv - llv)))) = some v := hg
              by_cases hden : hhv - llv = 0
              · rw [if_pos hden] at hg'; simp at hg'
              · rw [if_neg hden] at hg'
                simp only [Option.some.injEq] at hg'
                have hcD : close.getD i none = some cv := by
                  rw [List.getD_eq_getElem?_getD, hc]; rfl
                have hllD : (rolling listMin k low).getD i none = some llv := by
                  rw [List.getD_eq_getElem?_getD, hp1, hll]; rfl
                have hhhD : (rolling listMax k high).getD i none = some hhv := by
                  rw [List.getD_eq_getElem?_getD, hp2, hhh]; rfl
                obtain ⟨hiLow, lmin, hwmin, hvmin⟩ :=
                  rolling_getD_some listMin k low hllD
                obtain ⟨hiHigh, lmax, hwmax, hvmax⟩ :=
                  rolling_getD_some listMax k high hhhD
                obtain ⟨-, -, lowi, hlowiD, hlowimem⟩ :=
                  windowAt_some_facts hwmin hiLow hk
                obtain ⟨-, -, highi, hhighiD, hhighimem⟩ :=
                  windowAt_some_facts hwmax hiHigh hk
                obtain ⟨h1, h2⟩ := valid i lowi cv highi hlowiD hcD hhighiD
                have hllv_le : llv ≤ cv := by
                  calc llv = listMin lmin := hvmin
                  _ ≤ lowi := listMin_le_of_mem hlowimem
                  _ ≤ cv := h1
                have hcv_le : cv ≤ hhv := by
                  calc cv ≤ highi := h2
                  _ ≤ listMax lmax := le_listMax_of_mem hhighimem
                  _ = hhv := hvmax.symm
                have hpos : 0 < hhv - llv := by
                  rcases lt_or_eq_of_le (le_trans hllv_le hcv_le) with hlt | heq
                  · exact sub_pos.2 hlt
                  · exact absurd (by rw [heq]; ring) hden
                have hr0 : 0 ≤ (cv - llv) / (hhv - llv) :=
                  div_nonneg (sub_nonneg.2 hllv_le) hpos.le
                have hr1 : (cv - llv) / (hhv - llv) ≤ 1 :=
                  (div_le_one hpos).2 (by linarith)
                constructor
                · rw [← hg']; positivity
                · rw [← hg']; linarith

/-- C8: for every valid OHLC input (whenever low, close and high cells are
all finite at a position, `low ≤ close ≤ high` there), every defined cell of
the Stochastic `%K` and `%D` outputs lies within `[0, 100]`. -/
theorem stochastic_within_bounds {α : Type} [LinearOrderedField α]
    [Inhabited α] (high low close : List (Option α))
    (k_period d_period smooth_k : ℕ)
    (hk : 1 ≤ k_period) (hd : 1 ≤ d_period) (hsm : 1 ≤ smooth_k)
    (valid : ∀ j lv cv hv, low.getD j none = some lv →
      close.getD j none = some cv → high.getD j none = some hv →
      lv ≤ cv ∧ cv ≤ hv) :
    (∀ i v, ((calculate_stochastic high low close
        k_period d_period smooth_k).1).getD i none = some v →
        0 ≤ v ∧ v ≤ 100) ∧
    (∀ i v, ((calculate_stochastic high low close
        k_period d_period smooth_k).2).getD i none = some v →
        0 ≤ v ∧ v ≤ 100) := by
  have hraw : ∀ i v,
      (stochRawK high low close k_period).getD i none = some v →
      0 ≤ v ∧ v ≤ 100 := stochRawK_bounds hk valid
  have hkp : ∀ i v,
      (rolling listMean smooth_k
        (stochRawK high low close k_period)).getD i none = some v →
      0 ≤ v ∧ v ≤ 100 := rolling_mean_bounds hsm hraw
  constructor
  · intro i v h
    exact hkp i v (by simpa [calculate_stochastic] using h)
  · intro i v h
    exact rolling_mean_bounds hd hkp
      i v (by simpa [calculate_stochastic] using h)

theorem stochRawK_length {α : Type} [LinearOrderedField α] [Inhabited α]
    (high low close : List (Option α)) (k : ℕ) :
    (stochRawK high low close k).length =
      min close.length (min low.length high.length) := by
  simp [stochRawK, rolling_length]

/-- C7: for valid OHLC input, whenever the stochastic window range
`max(high) - min(low)` is zero at position `i` (both rolling outputs defined
and equal to the same `m`), the close there can only equal `m` as well — so
the float division is `0/0 = NaN`, never `x/0 = ±inf` — the raw %K cell is
undefined, and that undefined cell propagates through the %K smoothing window
exactly like an insufficient-history gap.  No error is raised: every function
involved is total. -/
theorem stochastic_zero_range_undefined {α : Type} [LinearOrderedField α]
    [Inhabited α] (high low close : List (Option α))
    (k_period d_period smooth_k : ℕ) (i : ℕ) (m : α)
    (hk : 1 ≤ k_period)
    (hlenl : low.length = close.length) (hlenh : high.length = close.length)
    (valid : ∀ j lv cv hv, low.getD j none = some lv →
      close.getD j none = some cv → high.getD j none = some hv →
      lv ≤ cv ∧ cv ≤ hv)
    (hi : i < close.length)
    (hmax : (rolling listMax k_period high).getD i none = some m)
    (hmin : (rolling listMin k_period low).getD i none = some m) :
    (∀ c, close.getD i none = some c → c = m) ∧
    (stochRawK high low close k_period).getD i none = none ∧
    (∀ j, i ≤ j → j < i + smooth_k → j < close.length →
      ((calculate_stochastic high low close
        k_period d_period smooth_k).1).getD j none = none) := by
  obtain ⟨hiLow, lmin, hwmin, hvmin⟩ := rolling_getD_some listMin k_period low hmin
  obtain ⟨hiHigh, lmax, hwmax, hvmax⟩ := rolling_getD_some listMax k_period high hmax
  obtain ⟨-, -, lowi, hlowiD, hlowimem⟩ := windowAt_some_facts hwmin hiLow hk
  obtain ⟨-, -, highi, hhighiD, hhighimem⟩ := windowAt_some_facts hwmax hiHigh hk
  have hclose_eq : ∀ c, close.getD i none = some c → c = m := by
    intro c hc
    obtain ⟨h1, h2⟩ := valid i lowi c highi hlowiD hc hhighiD
    have hml : m ≤ lowi := hvmin ▸ listMin_le_of_mem hlowimem
    have hhm : highi ≤ m := hvmax ▸ le_listMax_of_mem hhighimem
    exact le_antisymm (le_trans h2 hhm) (le_trans hml h1)
  have hraw : (stochRawK high low close k_period).getD i none = none := by
    unfold stochRawK
    obtain ⟨x, y, hx, hy, hz⟩ := getElem?_zipWith_of_lt
      (fun c lh =>
        match c, lh.1, lh.2 with
        | some c, some ll, some hh =>
            if hh - ll = 0 then none else some (100 * ((c - ll) / (hh - ll)))
        | _, _, _ => none)
      close ((rolling listMin k_period low).zip (rolling listMax k_period high))
      i hi
      (by simp [rolling_length]; omega)
    obtain ⟨hy1, hy2⟩ := zip_getElem?_some hy
    have hy1' : y.1 = some m := by
      have := getD_entry_some hmin (by rw [rolling_length, hlenl]; exact hi)
      rw [this] at hy1
      exact (Option.some.injEq _ _ ▸ hy1.symm : _)
    have hy2' : y.2 = some m := by
      have := getD_entry_some hmax (by rw [rolling_length, hlenh]; exact hi)
      rw [this] at hy2
      exact (Option.some.injEq _ _ ▸ hy2.symm : _)
    have hgz : (match x, y.1, y.2 with
        | some c, some ll, some hh =>
            if hh - ll = 0 then none
            else some (100 * ((c - ll) / (hh - ll)))
        | _, _, _ => (none : Option α)) = none := by
      rw [hy1', hy2']
      cases x with
      | none => rfl
      | some c =>
          have : (if m - m = 0 then none
              else some (100 * ((c - m) / (m - m)))) = (none : Option α) :=
            if_pos (sub_self m)
          exact this
    rw [List.getD_eq_getElem?_getD, hz, hgz]
    rfl
  refine ⟨hclose_eq, hraw, ?_⟩
  intro j hij hjw hjlen
  have hjraw : j < (stochRawK high low close k_period).length := by
    rw [stochRawK_length, hlenl, hlenh]
    omega
  have := rolling_entry_none listMean smooth_k
    (stochRawK high low close k_period) hraw hij hjw hjraw
  simpa [calculate_stochastic] using this

/-- Witness for C7 on the flat series `high = low = close = [5, 5]` with
`k_period = 2`, `smooth_k = d_period = 1`: the window range at position 1 is
zero, the raw %K there is undefined, and so is the smoothed %K. -/
theorem stochastic_zero_range_undefined_witness :
    (stochRawK (α := ℚ) [some 5, some 5] [some 5, some 5] [some 5, some 5]
      2).getD 1 none = none ∧
    ((calculate_stochastic (α := ℚ) [some 5, some 5] [some 5, some 5]
      [some 5, some 5] 2 1 1).1).getD 1 none = none := by
  have h := stochastic_zero_range_undefined (α := ℚ)
    [some 5, some 5] [some 5, some 5] [some 5, some 5] 2 1 1 1 5
    (by decide) rfl rfl
    (by
      intro j lv cv hv h1 h2 h3
      rcases j with _ | _ | j <;> simp_all)
    (by decide) (by decide) (by decide)
  exact ⟨h.2.1, h.2.2 1 le_rfl (by decide) (by decide)⟩

/-- Witness for C8: on the valid OHLC input `high = [2,3]`, `low = [1,2]`,
`close = [2,2]` with `(k, d, smooth) = (2, 1, 1)`, the defined %K cell at
position 1 has value 50, which lies within `[0, 100]`. -/
theorem stochastic_within_bounds_witness : (0 : ℚ) ≤ 50 ∧ (50 : ℚ) ≤ 100 :=
  (stochastic_within_bounds (α := ℚ) [some 2, some 3] [some 1, some 2]
    [some 2, some 2] 2 1 1 (by decide) (by decide) (by decide)
    (by
      intro j lv cv hv h1 h2 h3
      rcases j with _ | _ | j
      · simp only [List.getD_cons_zero, Option.some.injEq] at h1 h2 h3
        subst h1; subst h2; subst h3
        norm_num
      · simp only [List.getD_cons_succ, List.getD_cons_zero,
          Option.some.injEq] at h1 h2 h3
        subst h1; subst h2; subst h3
        norm_num
      · simp at h1) ).1
    1 50
    (by
      norm_num [calculate_stochastic, stochRawK, rolling, windowAt, allSome,
        listMin, listMax, listMean, List.range_succ])

theorem bollinger_mid_eval :
    rolling listMean 3 (([10, 10, 10, 20, 10] : List ℝ).map some) =
      [none, none, some 10, some (40 / 3), some (40 / 3)] := by
  norm_num [rolling, windowAt, allSome, listMean, List.range_succ]

theorem bollinger_var_eval :
    rolling listVarSample 3 (([10, 10, 10, 20, 10] : List ℝ).map some) =
      [none, none, some 0, some (100 / 3), some (100 / 3)] := by
  norm_num [rolling, windowAt, allSome, listVarSample, listMean,
    List.range_succ]

theorem sqrt_hundred_thirds_bounds :
    (5.77 : ℝ) < Real.sqrt (100 / 3) ∧ Real.sqrt (100 / 3) < (5.78 : ℝ) := by
  have h0 : (0 : ℝ) ≤ 100 / 3 := by norm_num
  have hsq := Real.sq_sqrt h0
  have hnn := Real.sqrt_nonneg (100 / 3 : ℝ)
  constructor <;> nlinarith [hsq, hnn]

/-- C3 counterexample: the code uses pandas `rolling(3).std()`, whose default
`ddof=1` gives the SAMPLE standard deviation.  Over `[10,10,10,20,10]` with
window 3 and multiplier 2, the upper band at position 3 is
`40/3 + 2*sqrt(100/3) ≈ 24.88`, strictly between 24.8 and 24.9 — not
`≈ 22.76` as the population-stddev claim asserts (population would give
`40/3 + 2*sqrt(200/9) ≈ 22.76`). -/
theorem bollinger_population_std_counterexample :
    ((calculate_bollinger_bands (([10, 10, 10, 20, 10] : List ℝ).map some)
        3 2).1).getD 3 none =
      some (40 / 3 + Real.sqrt (100 / 3) * 2) ∧
    (24.8 : ℝ) < 40 / 3 + Real.sqrt (100 / 3) * 2 ∧
    (40 / 3 + Real.sqrt (100 / 3) * 2 : ℝ) < (24.9 : ℝ) := by
  refine ⟨?_, ?_, ?_⟩
  · simp only [calculate_bollinger_bands, bollinger_mid_eval,
      bollinger_var_eval]
    simp [omap2]
  · have h := sqrt_hundred_thirds_bounds.1
    nlinarith [h]
  · have h := sqrt_hundred_thirds_bounds.2
    nlinarith [h]

/-- C3 amended: BollingerBands uses the SAMPLE (`ddof=1`) standard deviation
over each rolling window.  For window 3 and multiplier 2 over
`[10,10,10,20,10]`: `middle[2] = 10` with stddev 0 so
`upper[2] = lower[2] = 10`; `middle[3] = 40/3 ≈ 13.33` with sample stddev
`sqrt(100/3) ≈ 5.7735`, giving `upper[3] = 40/3 + 2*sqrt(100/3) ≈ 24.88` and
`lower[3] = 40/3 - 2*sqrt(100/3) ≈ 1.79`. -/
theorem bollinger_sample_std_amended :
    ((calculate_bollinger_bands (([10, 10, 10, 20, 10] : List ℝ).map some)
        3 2).2.1).getD 2 none = some 10 ∧
    ((calculate_bollinger_bands (([10, 10, 10, 20, 10] : List ℝ).map some)
        3 2).1).getD 2 none = some 10 ∧
    ((calculate_bollinger_bands (([10, 10, 10, 20, 10] : List ℝ).map some)
        3 2).2.2).getD 2 none = some 10 ∧
    ((calculate_bollinger_bands (([10, 10, 10, 20, 10] : List ℝ).map some)
        3 2).2.1).getD 3 none = some (40 / 3) ∧
    ((calculate_bollinger_bands (([10, 10, 10, 20, 10] : List ℝ).map some)
        3 2).1).getD 3 none =
      some (40 / 3 + Real.sqrt (100 / 3) * 2) ∧
    ((calculate_bollinger_bands (([10, 10, 10, 20, 10] : List ℝ).map some)
        3 2).2.2).getD 3 none =
      some (40 / 3 - Real.sqrt (100 / 3) * 2) ∧
    ((1.7 : ℝ) < 40 / 3 - Real.sqrt (100 / 3) * 2 ∧
      (40 / 3 - Real.sqrt (100 / 3) * 2 : ℝ) < (1.8 : ℝ)) := by
  refine ⟨?_, ?_, ?_, ?_, ?_, ?_, ?_, ?_⟩
  · simp only [calculate_bollinger_bands, bollinger_mid_eval,
      bollinger_var_eval]
    simp
  · simp only [calculate_bollinger_bands, bollinger_mid_eval,
      bollinger_var_eval]
    simp [omap2]
  · simp only [calculate_bollinger_bands, bollinger_mid_eval,
      bollinger_var_eval]
    simp [omap2]
  · simp only [calculate_bollinger_bands, bollinger_mid_eval,
      bollinger_var_eval]
    simp
  · simp only [calculate_bollinger_bands, bollinger_mid_eval,
      bollinger_var_eval]
    simp [omap2]
  · simp only [calculate_bollinger_bands, bollinger_mid_eval,
      bollinger_var_eval]
    simp [omap2]
  · have h := sqrt_hundred_thirds_bounds.2
    nlinarith [h]
  · have h := sqrt_hundred_thirds_bounds.1
    nlinarith [h]

/-- Number of index entries `≤ t`; for a sorted index this is numpy
`searchsorted(t, side="right")`. -/
def countLE (ts : List ℤ) (t : ℤ) : ℕ := (ts.filter (fun x => x ≤ t)).length

/-- Number of index entries `< t`; for a sorted index this is numpy
`searchsorted(t, side="left")`. -/
def countLT (ts : List ℤ) (t : ℤ) : ℕ := (ts.filter (fun x => x < t)).length

/-- pandas `get_indexer(..., method="pad")` for a sorted unique index: the
position of the last entry `≤ t`, or `none` (pandas `-1`) when every entry
exceeds `t`. -/
def get_indexer_pad (ts : List ℤ) (t : ℤ) : Option ℕ :=
  if countLE ts t = 0 then none else some (countLE ts t - 1)

/-- pandas `get_indexer(..., method="backfill")` for a sorted unique index:
the position of the first entry `≥ t`, or `none` (pandas `-1`) when every
entry is below `t`. -/
def get_indexer_backfill (ts : List ℤ) (t : ℤ) : Option ℕ :=
  if countLT ts t = ts.length then none else some (countLT ts t)

/-- pandas `Index._get_nearest_indexer` for a monotonically increasing index:
`indexer = np.where(op(left_distances, right_distances) | (right_indexer ==
-1), left_indexer, right_indexer)` with `op = operator.lt`, so on a distance
tie the RIGHT (later) position is selected.  In the `left = -1` case pandas
computes the left distance from the wrapped element `index[-1]` (the last
entry); for a sorted index with `t` below the first entry that distance is
never strictly smaller than the right distance, so the right indexer is
selected — modelled directly by returning the backfill position. -/
def get_indexer_nearest (ts : List ℤ) (t : ℤ) : Option ℕ :=
  match get_indexer_pad ts t, get_indexer_backfill ts t with
  | none, none => none
  | some l, none => some l
  | none, some r => some r
  | some l, some r =>
      if |ts.getD l 0 - t| < |ts.getD r 0 - t| then some l else some r

/-- `find_nearest_candlestick` (src/main.py:383-398):
`idx = df.index.get_indexer([target_ts], method="nearest")[0]; return
df.index[idx]`.  Timestamps are modelled as integers (e.g. epoch units)
after the function's timezone normalization, which only converts the target
to the index's timezone representation before comparing. -/
def find_nearest_candlestick (ts : List ℤ) (t : ℤ) : Option ℤ :=
  (get_indexer_nearest ts t).bind (fun i => ts[i]?)

theorem countLE_iff (t : ℤ) :
    ∀ (ts : List ℤ), ts.Pairwise (· < ·) →
      ∀ i (hi : i < ts.length), (ts[i] ≤ t ↔ i < countLE ts t) := by
  intro ts
  induction ts with
  | nil => intro _ i hi; simp at hi
  | cons a rest ih =>
      intro hp i hi
      have ha : ∀ b ∈ rest, a < b := (List.pairwise_cons.1 hp).1
      have hrest := (List.pairwise_cons.1 hp).2
      by_cases hat : a ≤ t
      · have hcnt : countLE (a :: rest) t = countLE rest t + 1 := by
          simp [countLE, List.filter_cons, hat]
        cases i with
        | zero => simp [hcnt, hat]
        | succ j =>
            have hj : j < rest.length := by simpa using hi
            have := ih hrest j hj
            simpa [hcnt, Nat.succ_lt_succ_iff] using this
      · have hcnt : countLE (a :: rest) t = 0 := by
          have hall : ∀ b ∈ a :: rest, ¬(b ≤ t) := by
            intro b hb
            rcases List.mem_cons.1 hb with rfl | hb'
            · exact hat
            · have := ha b hb'; omega
          simp only [countLE, List.length_eq_zero, List.filter_eq_nil_iff]
          intro b hb
          simpa using hall b hb
        cases i with
        | zero => simp [hcnt, hat]
        | succ j =>
            have hj : j < rest.length := by simpa using hi
            have hbj : rest[j] ∈ rest := List.getElem_mem hj
            have hnb : ¬(rest[j] ≤ t) := by have := ha _ hbj; omega
            simp [hcnt, hnb]

theorem countLT_iff (t : ℤ) :
    ∀ (ts : List ℤ), ts.Pairwise (· < ·) →
      ∀ i (hi : i < ts.length), (ts[i] < t ↔ i < countLT ts t) := by
  intro ts
  induction ts with
  | nil => intro _ i hi; simp at hi
  | cons a rest ih =>
      intro hp i hi
      have ha : ∀ b ∈ rest, a < b := (List.pairwise_cons.1 hp).1
      have hrest := (List.pairwise_cons.1 hp).2
      by_cases hat : a < t
      · have hcnt : countLT (a :: rest) t = countLT rest t + 1 := by
          simp [countLT, List.filter_cons, hat]
        cases i with
        | zero => simp [hcnt, hat]
        | succ j =>
            have hj : j < rest.length := by simpa using hi
            have := ih hrest j hj
            simpa [hcnt, Nat.succ_lt_succ_iff] using this
      · have hcnt : countLT (a :: rest) t = 0 := by
          have hall : ∀ b ∈ a :: rest, ¬(b < t) := by
            intro b hb
            rcases List.mem_cons.1 hb with rfl | hb'
            · exact hat
            · have := ha b hb'; omega
          simp only [countLT, List.length_eq_zero, List.filter_eq_nil_iff]
          intro b hb
          simpa using hall b hb
        cases i with
        | zero => simp [hcnt, hat]
        | succ j =>
            have hj : j < rest.length := by simpa using hi
            have hbj : rest[j] ∈ rest := List.getElem_mem hj
            have hnb : ¬(rest[j] < t) := by have := ha _ hbj; omega
            simp [hcnt, hnb]

theorem sorted_mono {ts : List ℤ} (hs : ts.Pairwise (· < ·)) :
    ∀ i j (hi : i < ts.length) (hj : j < ts.length), i < j → ts[i] < ts[j] := by
  intro i j hi hj hij
  exact List.pairwise_iff_getElem.1 hs i j hi hj hij

theorem sorted_mono_le {ts : List ℤ} (hs : ts.Pairwise (· < ·)) :
    ∀ i j (hi : i < ts.length) (hj : j < ts.length), i ≤ j → ts[i] ≤ ts[j] := by
  intro i j hi hj hij
  rcases Nat.lt_or_ge i j with h | h
  · exact le_of_lt (sorted_mono hs i j hi hj h)
  · have heq : i = j := Nat.le_antisymm hij h
    subst heq
    exact le_refl _

theorem get_indexer_nearest_eq_ite (ts : List ℤ) (t : ℤ) {l r : ℕ}
    (hp : get_indexer_pad ts t = some l)
    (hb : get_indexer_backfill ts t = some r) :
    get_indexer_nearest ts t =
      if |ts.getD l 0 - t| < |ts.getD r 0 - t| then some l else some r := by
  rw [get_indexer_nearest, hp, hb]

/-- Characterization of the pandas nearest lookup on a non-empty strictly
increasing index: the result is a member at minimal absolute distance to the
target, and on a distance tie the LATER timestamp is selected. -/
theorem find_nearest_char (ts : List ℤ) (t : ℤ) (hne : ts ≠ [])
    (hs : ts.Pairwise (· < ·)) :
    ∃ (r : ℤ), find_nearest_candlestick ts t = some r ∧ r ∈ ts ∧
      (∀ v ∈ ts, |r - t| ≤ |v - t|) ∧
      (∀ v ∈ ts, |v - t| = |r - t| → v ≤ r) := by
  have hn : 0 < ts.length := List.length_pos.2 hne
  have hA : ∀ i (hi : i < ts.length), (ts[i] ≤ t ↔ i < countLE ts t) :=
    countLE_iff t ts hs
  have hB : ∀ i (hi : i < ts.length), (ts[i] < t ↔ i < countLT ts t) :=
    countLT_iff t ts hs
  have hLEn : countLE ts t ≤ ts.length := List.length_filter_le _ _
  have hLTn : countLT ts t ≤ ts.length := List.length_filter_le _ _
  have hLTLE : countLT ts t ≤ countLE ts t := by
    by_contra hc
    push_neg at hc
    have h1 : countLE ts t < ts.length := lt_of_lt_of_le hc hLTn
    have h2 := (hB _ h1).2 hc
    have h3 := (hA _ h1).1 (le_of_lt h2)
    omega
  have hgetD : ∀ i (h : i < ts.length), ts.getD i 0 = ts[i] := by
    intro i h
    rw [List.getD_eq_getElem?_getD, List.getElem?_eq_getElem h]
    rfl
  by_cases hLE0 : countLE ts t = 0
  · -- Case: every entry exceeds the target; pandas selects the first entry.
    have hpad : get_indexer_pad ts t = none := by
      simp [get_indexer_pad, hLE0]
    have hLT0 : countLT ts t = 0 := by omega
    have hbf : get_indexer_backfill ts t = some 0 := by
      rw [get_indexer_backfill, if_neg (by omega)]
      rw [hLT0]
    have hres : find_nearest_candlestick ts t = some ts[0] := by
      rw [find_nearest_candlestick, get_indexer_nearest, hpad, hbf]
      simp [List.getElem?_eq_getElem hn]
    have ht0 : t < ts[0] := by
      by_contra hle
      push_neg at hle
      have := (hA 0 hn).1 hle
      omega
    refine ⟨ts[0], hres, List.getElem_mem hn, ?_, ?_⟩
    · intro v hv
      obtain ⟨j, hj, rfl⟩ := List.mem_iff_getElem.1 hv
      have h0j : ts[0] ≤ ts[j] := sorted_mono_le hs 0 j hn hj (Nat.zero_le j)
      rw [abs_of_pos (by omega : (0:ℤ) < ts[0] - t),
        abs_of_pos (by omega : (0:ℤ) < ts[j] - t)]
      omega
    · intro v hv heq
      obtain ⟨j, hj, rfl⟩ := List.mem_iff_getElem.1 hv
      have h0j : ts[0] ≤ ts[j] := sorted_mono_le hs 0 j hn hj (Nat.zero_le j)
      rw [abs_of_pos (by omega : (0:ℤ) < ts[j] - t),
        abs_of_pos (by omega : (0:ℤ) < ts[0] - t)] at heq
      omega
  · have hLEpos : 0 < countLE ts t := Nat.pos_of_ne_zero hLE0
    have hpad : get_indexer_pad ts t = some (countLE ts t - 1) := by
      simp [get_indexer_pad, hLE0]
    have hl_lt : countLE ts t - 1 < ts.length := by omega
    have htl_le : ts[countLE ts t - 1] ≤ t := (hA _ hl_lt).2 (by omega)
    by_cases hLTfull : countLT ts t = ts.length
    · -- Case: every entry is below the target; pandas selects the last entry.
      have hLEfull : countLE ts t = ts.length := by omega
      have hbf : get_indexer_backfill ts t = none := by
        simp [get_indexer_backfill, hLTfull]
      have hres : find_nearest_candlestick ts t = some ts[ts.length - 1] := by
        rw [find_nearest_candlestick, get_indexer_nearest, hpad, hbf]
        simp [hLEfull, List.getElem?_eq_getElem (by omega : ts.length - 1 < ts.length)]
      have hlast_lt : ts[ts.length - 1] < t := (hB _ (by omega)).2 (by omega)
      refine ⟨ts[ts.length - 1], by rw [hres], List.getElem_mem (by omega), ?_, ?_⟩
      · intro v hv
        obtain ⟨j, hj, rfl⟩ := List.mem_iff_getElem.1 hv
        have hjl : ts[j] ≤ ts[ts.length - 1] :=
          sorted_mono_le hs j (ts.length - 1) hj (by omega) (by omega)
        have hjt : ts[j] < t := (hB _ hj).2 (by omega)
        rw [abs_of_neg (by omega : ts[ts.length - 1] - t < 0),
          abs_of_neg (by omega : ts[j] - t < 0)]
        omega
      · intro v hv heq
        obtain ⟨j, hj, rfl⟩ := List.mem_iff_getElem.1 hv
        have hjl : ts[j] ≤ ts[ts.length - 1] :=
          sorted_mono_le hs j (ts.length - 1) hj (by omega) (by omega)
        have hjt : ts[j] < t := (hB _ hj).2 (by omega)
        rw [abs_of_neg (by omega : ts[j] - t < 0),
          abs_of_neg (by omega : ts[ts.length - 1] - t < 0)] at heq
        omega
    · -- backfill exists
      have hr_lt : countLT ts t < ts.length := by omega
      have hbf : get_indexer_backfill ts t = some (countLT ts t) := by
        simp [get_indexer_backfill, hLTfull]
      have htr_ge : ¬(ts[countLT ts t] < t) := by
        intro hlt
        have := (hB _ hr_lt).1 hlt
        omega
      by_cases hhit : countLT ts t < countLE ts t
      · -- Case: the target is exactly an index entry; both indexers agree.
        have hteq : ts[countLT ts t] = t := by
          have hle : ts[countLT ts t] ≤ t := (hA _ hr_lt).2 hhit
          omega
        have hleq : countLE ts t - 1 = countLT ts t := by
          by_contra hne2
          have hlt2 : countLT ts t < countLE ts t - 1 := by omega
          have hlt3 := sorted_mono hs (countLT ts t) (countLE ts t - 1)
            hr_lt hl_lt hlt2
          rw [hteq] at hlt3
          exact absurd htl_le (not_le.2 hlt3)
        have hpad2 : get_indexer_pad ts t = some (countLT ts t) := by
          rw [hpad, hleq]
        have hnear : get_indexer_nearest ts t = some (countLT ts t) := by
          rw [get_indexer_nearest_eq_ite ts t hpad2 hbf,
            if_neg (lt_irrefl _)]
        have hres : find_nearest_candlestick ts t = some ts[countLT ts t] := by
          rw [find_nearest_candlestick, hnear]
          simp [List.getElem?_eq_getElem hr_lt]
        refine ⟨ts[countLT ts t], hres, List.getElem_mem hr_lt, ?_, ?_⟩
        · intro v hv
          rw [hteq]
          simpa using abs_nonneg (v - t)
        · intro v hv heq
          rw [hteq] at heq ⊢
          have hz : |v - t| = 0 := by simpa using heq
          have hv0 : v - t = 0 := abs_eq_zero.1 hz
          omega
      · -- Case: the target falls strictly between two entries.
        have hc : countLT ts t = countLE ts t := by omega
        have hl2 : countLT ts t - 1 < ts.length := by omega
        have hpad2 : get_indexer_pad ts t = some (countLT ts t - 1) := by
          rw [hpad]
          exact congrArg some (by omega)
        have htl_lt : ts[countLT ts t - 1] < t :=
          (hB _ hl2).2 (by omega)
        have htr_gt : t < ts[countLT ts t] := by
          have h1 : ¬(ts[countLT ts t] ≤ t) := by
            intro hle
            have := (hA _ hr_lt).1 hle
            omega
          omega
        have habs_l : |ts[countLT ts t - 1] - t| = t - ts[countLT ts t - 1] := by
          rw [abs_of_neg (by omega : ts[countLT ts t - 1] - t < 0)]
          ring
        have habs_r : |ts[countLT ts t] - t| = ts[countLT ts t] - t := by
          rw [abs_of_pos (by omega : (0:ℤ) < ts[countLT ts t] - t)]
        have hite := get_indexer_nearest_eq_ite ts t hpad2 hbf
        rw [hgetD _ hl2, hgetD _ hr_lt] at hite
        by_cases hd : |ts[countLT ts t - 1] - t| < |ts[countLT ts t] - t|
        · -- left (earlier) entry strictly closer
          have hres : find_nearest_candlestick ts t =
              some ts[countLT ts t - 1] := by
            rw [find_nearest_candlestick, hite, if_pos hd]
            simp [List.getElem?_eq_getElem hl2]
          refine ⟨ts[countLT ts t - 1], hres, List.getElem_mem hl2, ?_, ?_⟩
          · intro v hv
            obtain ⟨j, hj, rfl⟩ := List.mem_iff_getElem.1 hv
            rcases Nat.lt_or_ge j (countLT ts t) with hjc | hjc
            · have hjle : ts[j] ≤ ts[countLT ts t - 1] :=
                sorted_mono_le hs j (countLT ts t - 1) hj hl2 (by omega)
              have hjlt : ts[j] < t := by omega
              rw [habs_l, abs_of_neg (by omega : ts[j] - t < 0)]
              omega
            · have hjge : ts[countLT ts t] ≤ ts[j] :=
                sorted_mono_le hs (countLT ts t) j hr_lt hj hjc
              rw [habs_l, abs_of_pos (by omega : (0:ℤ) < ts[j] - t)]
              rw [habs_l, habs_r] at hd
              omega
          · intro v hv heq
            obtain ⟨j, hj, rfl⟩ := List.mem_iff_getElem.1 hv
            rcases Nat.lt_or_ge j (countLT ts t) with hjc | hjc
            · have hjle : ts[j] ≤ ts[countLT ts t - 1] :=
                sorted_mono_le hs j (countLT ts t - 1) hj hl2 (by omega)
              have hjlt : ts[j] < t := by omega
              rw [habs_l, abs_of_neg (by omega : ts[j] - t < 0)] at heq
              omega
            · have hjge : ts[countLT ts t] ≤ ts[j] :=
                sorted_mono_le hs (countLT ts t) j hr_lt hj hjc
              rw [habs_l, abs_of_pos (by omega : (0:ℤ) < ts[j] - t)] at heq
              rw [habs_l, habs_r] at hd
              omega
        · -- tie or right closer: the right (later) entry is selected
          have hres : find_nearest_candlestick ts t =
              some ts[countLT ts t] := by
            rw [find_nearest_candlestick, hite, if_neg hd]
            simp [List.getElem?_eq_getElem hr_lt]
          push_neg at hd
          refine ⟨ts[countLT ts t], hres, List.getElem_mem hr_lt, ?_, ?_⟩
          · intro v hv
            obtain ⟨j, hj, rfl⟩ := List.mem_iff_getElem.1 hv
            rcases Nat.lt_or_ge j (countLT ts t) with hjc | hjc
            · have hjle : ts[j] ≤ ts[countLT ts t - 1] :=
                sorted_mono_le hs j (countLT ts t - 1) hj hl2 (by omega)
              have hjlt : ts[j] < t := by omega
              rw [habs_r, abs_of_neg (by omega : ts[j] - t < 0)]
              rw [habs_l, habs_r] at hd
              omega
            · have hjge : ts[countLT ts t] ≤ ts[j] :=
                sorted_mono_le hs (countLT ts t) j hr_lt hj hjc
              rw [habs_r, abs_of_pos (by omega : (0:ℤ) < ts[j] - t)]
              omega
          · intro v hv heq
            obtain ⟨j, hj, rfl⟩ := List.mem_iff_getElem.1 hv
            rcases Nat.lt_or_ge j (countLT ts t) with hjc | hjc
            · have hjle : ts[j] ≤ ts[countLT ts t - 1] :=
                sorted_mono_le hs j (countLT ts t - 1) hj hl2 (by omega)
              have hjlt : ts[j] < t := by omega
              omega
            · have hjge : ts[countLT ts t] ≤ ts[j] :=
                sorted_mono_le hs (countLT ts t) j hr_lt hj hjc
              rw [habs_r, abs_of_pos (by omega : (0:ℤ) < ts[j] - t)] at heq
              omega

/-- C2 counterexample: for the strictly increasing index `[0, 2]` and target
`1`, both entries are equidistant, yet `find_nearest_candlestick` returns `2`
(the LATER timestamp, per pandas `_get_nearest_indexer` with `operator.lt`),
not the earlier `0` the claim requires. -/
theorem nearest_tie_earlier_counterexample :
    ([0, 2] : List ℤ).Pairwise (· < ·) ∧
    |(0 : ℤ) - 1| = |(2 : ℤ) - 1| ∧
    find_nearest_candlestick [0, 2] 1 = some 2 ∧
    find_nearest_candlestick [0, 2] 1 ≠ some 0 := by
  refine ⟨?_, ?_, ?_, ?_⟩ <;> decide

/-- C2 amended: for every non-empty strictly increasing index and every
target, the resolver returns a bar timestamp with minimal absolute distance
to the target; when two bar timestamps are equidistant it returns the LATER
of the two (every tied member is `≤` the result). -/
theorem nearest_minimal_tie_later (ts : List ℤ) (t : ℤ) (hne : ts ≠ [])
    (hs : ts.Pairwise (· < ·)) :
    ∃ (r : ℤ), find_nearest_candlestick ts t = some r ∧ r ∈ ts ∧
      (∀ v ∈ ts, |r - t| ≤ |v - t|) ∧
      (∀ v ∈ ts, |v - t| = |r - t| → v ≤ r) :=
  find_nearest_char ts t hne hs

/-- Witness for the amended C2 at the tie instance `ts = [0, 2]`, `t = 1`. -/
theorem nearest_minimal_tie_later_witness :
    ∃ (r : ℤ), find_nearest_candlestick [0, 2] 1 = some r ∧ r ∈ [0, 2] ∧
      (∀ v ∈ ([0, 2] : List ℤ), |r - 1| ≤ |v - 1|) ∧
      (∀ v ∈ ([0, 2] : List ℤ), |v - 1| = |r - 1| → v ≤ r) :=
  nearest_minimal_tie_later [0, 2] 1 (by decide) (by decide)

/-- C9: boundary behavior of the Timestamp Alignment Resolver on a non-empty
strictly increasing index: a target before the first timestamp resolves to
the first, a target after the last resolves to the last, and a target equal
to some bar timestamp resolves to exactly that timestamp; no input in these
cases fails (the lookup always returns a value). -/
theorem nearest_boundary_cases (ts : List ℤ) (t : ℤ) (hne : ts ≠ [])
    (hs : ts.Pairwise (· < ·)) :
    (∀ x, ts.head? = some x → t < x →
      find_nearest_candlestick ts t = some x) ∧
    (∀ x, ts.getLast? = some x → x < t →
      find_nearest_candlestick ts t = some x) ∧
    (t ∈ ts → find_nearest_candlestick ts t = some t) := by
  obtain ⟨r, hres, hmem, hmin, -⟩ := find_nearest_char ts t hne hs
  have hn : 0 < ts.length := List.length_pos.2 hne
  obtain ⟨j, hj, hrj⟩ := List.mem_iff_getElem.1 hmem
  refine ⟨?_, ?_, ?_⟩
  · intro x hx hlt
    have hx0 : x = ts[0] := by
      rw [List.head?_eq_getElem?, List.getElem?_eq_getElem hn] at hx
      exact (Option.some.injEq _ _ ▸ hx.symm : _)
    subst hx0
    have h0r : ts[0] ≤ r := by
      rw [← hrj]
      exact sorted_mono_le hs 0 j hn hj (Nat.zero_le j)
    have hminr := hmin ts[0] (List.getElem_mem hn)
    rw [abs_of_pos (by omega : (0:ℤ) < ts[0] - t),
      abs_of_pos (by omega : (0:ℤ) < r - t)] at hminr
    rw [hres]
    have : r = ts[0] := by omega
    rw [this]
  · intro x hx hlt
    have hlast : ts.length - 1 < ts.length := by omega
    have hxl : x = ts[ts.length - 1] := by
      rw [List.getLast?_eq_getElem?, List.getElem?_eq_getElem hlast] at hx
      exact (Option.some.injEq _ _ ▸ hx.symm : _)
    have hrl : r ≤ x := by
      rw [hxl, ← hrj]
      exact sorted_mono_le hs j (ts.length - 1) hj hlast (by omega)
    have hminr := hmin x (by rw [hxl]; exact List.getElem_mem hlast)
    rw [abs_of_neg (by omega : x - t < 0),
      abs_of_neg (by omega : r - t < 0)] at hminr
    have hreq : r = x := by omega
    rw [hres, hreq]
  · intro ht
    have hminr := hmin t ht
    have : |r - t| = 0 := by
      have h0 : |t - t| = 0 := by simp
      have := abs_nonneg (r - t)
      omega
    have : r = t := by
      have := abs_eq_zero.1 this
      omega
    rw [hres, this]

/-- Witness for C9 on `ts = [10, 20]`: target 5 (before the first) resolves
to 10, target 25 (after the last) resolves to 20, and target 20 (an exact
member) resolves to 20. -/
theorem nearest_boundary_cases_witness :
    find_nearest_candlestick [10, 20] 5 = some 10 ∧
    find_nearest_candlestick [10, 20] 25 = some 20 ∧
    find_nearest_candlestick [10, 20] 20 = some 20 :=
  ⟨(nearest_boundary_cases [10, 20] 5 (by decide) (by decide)).1 10 rfl
      (by decide),
    (nearest_boundary_cases [10, 20] 25 (by decide) (by decide)).2.1 20
      (by decide) (by decide),
    (nearest_boundary_cases [10, 20] 20 (by decide) (by decide)).2.2
      (by decide)⟩

/-- Proleptic Gregorian day number (Julian Day Number) of a calendar date;
embeds Python `datetime` instants at day granularity, so `timedelta(days=n)`
is `+ n` and date comparisons are integer comparisons.  All intermediate
quotients are of non-negative values, so the division convention is
immaterial. -/
def rataDie (y m d : ℤ) : ℤ :=
  let a : ℤ := (14 - m) / 12
  let y2 : ℤ := y + 4800 - a
  let m2 : ℤ := m + 12 * a - 3
  d + (153 * m2 + 2) / 5 + 365 * y2 + y2 / 4 - y2 / 100 + y2 / 400 - 32045

/-- The fixed anchor list of `get_bitcoin_halving_signals`
(src/main.py:159-165). -/
def halving_dates : List ℤ :=
  [rataDie 2012 11 28, rataDie 2016 7 9, rataDie 2020 5 11, rataDie 2024 4 20]

/-- `get_bitcoin_halving_signals` (src/main.py:152-186): for each halving
anchor, the top signal is `anchor + timedelta(days=518)` and the bottom
signal is `anchor + timedelta(days=883)`; returns
`(halvings, top_signals, bottom_signals)`. -/
def get_bitcoin_halving_signals : List ℤ × List ℤ × List ℤ :=
  (halving_dates, halving_dates.map (fun h => h + 518),
    halving_dates.map (fun h => h + 883))

/-- One chart overlay descriptor: the category tag, the label text, and the
bar timestamp the vertical line was aligned to. -/
structure Marker where
  category : String
  label : String
  aligned : Option ℤ
deriving DecidableEq

/-- One of the three overlay loops of `create_tradingview_chart`
(src/main.py:400-483): `for i, date in enumerate(dates): if start <= date <=
end: aligned = find_nearest_candlestick(date); emit label f"{base}{i+1}"`.
Dates outside `[start, end]` are silently dropped. -/
def markersFor (category labelBase : String) (dates : List ℤ)
    (index : List ℤ) (startD endD : ℤ) : List Marker :=
  dates.enum.filterMap (fun p =>
    if startD ≤ p.2 ∧ p.2 ≤ endD then
      some ⟨category, labelBase ++ toString (p.1 + 1),
        find_nearest_candlestick index p.2⟩
    else none)

/-- The overlay-assembly part of `create_tradingview_chart`
(src/main.py:363-483): `date_range_start = df.index.min()`,
`date_range_end = df.index.max()`, then the halving, top-signal and
bottom-signal loops in that order. -/
def create_tradingview_chart_markers (index : List ℤ) : List Marker :=
  let signals := get_bitcoin_halving_signals
  markersFor "halving" "Halving " signals.1 index (listMin index)
      (listMax index)
    ++ markersFor "top" "Top " signals.2.1 index (listMin index)
      (listMax index)
    ++ markersFor "bottom" "Bottom " signals.2.2 index (listMin index)
      (listMax index)

theorem foldl_min_eq_init {α : Type} [LinearOrder α] :
    ∀ (t : List α) (x : α), (∀ v ∈ t, x ≤ v) → t.foldl min x = x := by
  intro t
  induction t with
  | nil => intro x _; rfl
  | cons b t ih =>
      intro x h
      rw [List.foldl_cons, min_eq_left (h b (by simp))]
      exact ih x (fun v hv => h v (by simp [hv]))

theorem listMin_eq_head {α : Type} [LinearOrder α] [Inhabited α]
    {l : List α} (hs : l.Pairwise (· < ·)) {x : α}
    (hx : l.head? = some x) : listMin l = x := by
  cases l with
  | nil => simp at hx
  | cons a t =>
      have hax : a = x := by simpa using hx
      subst hax
      have ha := (List.pairwise_cons.1 hs).1
      exact foldl_min_eq_init t a (fun v hv => le_of_lt (ha v hv))

theorem listMax_eq_getLast {α : Type} [LinearOrder α] [Inhabited α] :
    ∀ (l : List α), l.Pairwise (· < ·) → ∀ x, l.getLast? = some x →
      listMax l = x := by
  intro l
  induction l with
  | nil => intro _ x hx; simp at hx
  | cons a t ih =>
      intro hp x hx
      cases t with
      | nil =>
          have hax : a = x := by simpa using hx
          subst hax; rfl
      | cons b t2 =>
          have hab : a < b := (List.pairwise_cons.1 hp).1 b (by simp)
          have hp2 : (b :: t2).Pairwise (· < ·) := (List.pairwise_cons.1 hp).2
          have hx2 : (b :: t2).getLast? = some x := by simpa using hx
          have hrec := ih hp2 x hx2
          show (b :: t2).foldl max a = x
          rw [List.foldl_cons, max_eq_right (le_of_lt hab)]
          simpa [listMax] using hrec

/-- C10: for any Bar Series whose strictly increasing timestamps start at
2023-01-01 and end at 2024-12-31, the overlay assembly emits exactly one
descriptor: category `"halving"` with label `"Halving 4"` (the 1-based index
of the anchor 2024-04-20 in the fixed list); the other three anchors and all
eight top/bottom signal dates fall outside the range and are silently
dropped, with no error. -/
theorem overlay_emits_single_halving4 (index : List ℤ)
    (hs : index.Pairwise (· < ·))
    (hfirst : index.head? = some (rataDie 2023 1 1))
    (hlast : index.getLast? = some (rataDie 2024 12 31)) :
    (create_tradingview_chart_markers index).map
      (fun a => (a.category, a.label)) = [("halving", "Halving 4")] := by
  have hmin : listMin index = rataDie 2023 1 1 := listMin_eq_head hs hfirst
  have hmax : listMax index = rataDie 2024 12 31 :=
    listMax_eq_getLast index hs _ hlast
  have c1 : ¬(rataDie 2023 1 1 ≤ rataDie 2012 11 28 ∧
      rataDie 2012 11 28 ≤ rataDie 2024 12 31) := by decide
  have c2 : ¬(rataDie 2023 1 1 ≤ rataDie 2016 7 9 ∧
      rataDie 2016 7 9 ≤ rataDie 2024 12 31) := by decide
  have c3 : ¬(rataDie 2023 1 1 ≤ rataDie 2020 5 11 ∧
      rataDie 2020 5 11 ≤ rataDie 2024 12 31) := by decide
  have c4 : (rataDie 2023 1 1 ≤ rataDie 2024 4 20 ∧
      rataDie 2024 4 20 ≤ rataDie 2024 12 31) := by decide
  have c5 : ¬(rataDie 2023 1 1 ≤ rataDie 2012 11 28 + 518 ∧
      rataDie 2012 11 28 + 518 ≤ rataDie 2024 12 31) := by decide
  have c6 : ¬(rataDie 2023 1 1 ≤ rataDie 2016 7 9 + 518 ∧
      rataDie 2016 7 9 + 518 ≤ rataDie 2024 12 31) := by decide
  have c7 : ¬(rataDie 2023 1 1 ≤ rataDie 2020 5 11 + 518 ∧
      rataDie 2020 5 11 + 518 ≤ rataDie 2024 12 31) := by decide
  have c8 : ¬(rataDie 2023 1 1 ≤ rataDie 2024 4 20 + 518 ∧
      rataDie 2024 4 20 + 518 ≤ rataDie 2024 12 31) := by decide
  have c9 : ¬(rataDie 2023 1 1 ≤ rataDie 2012 11 28 + 883 ∧
      rataDie 2012 11 28 + 883 ≤ rataDie 2024 12 31) := by decide
  have c10 : ¬(rataDie 2023 1 1 ≤ rataDie 2016 7 9 + 883 ∧
      rataDie 2016 7 9 + 883 ≤ rataDie 2024 12 31) := by decide
  have c11 : ¬(rataDie 2023 1 1 ≤ rataDie 2020 5 11 + 883 ∧
      rataDie 2020 5 11 + 883 ≤ rataDie 2024 12 31) := by decide
  have c12 : ¬(rataDie 2023 1 1 ≤ rataDie 2024 4 20 + 883 ∧
      rataDie 2024 4 20 + 883 ≤ rataDie 2024 12 31) := by decide
  simp only [create_tradingview_chart_markers, get_bitcoin_halving_signals,
    halving_dates, hmin, hmax, markersFor, List.map_cons, List.map_nil,
    List.enum, List.enumFrom, List.filterMap_cons, List.filterMap_nil]
  simp only [c1, c2, c3, c4, c5, c6, c7, c8, c9, c10, c11, c12, if_true,
    if_false, ite_true, ite_false, iff_true, iff_false]
  simp [c1, c2, c3, c4, c5, c6, c7, c8, c9, c10, c11, c12]
  decide

/-- Witness for C10 on the concrete index
`[2023-01-01, 2024-04-19, 2024-12-31]`. -/
theorem overlay_emits_single_halving4_witness :
    (create_tradingview_chart_markers
      [rataDie 2023 1 1, rataDie 2024 4 19, rataDie 2024 12 31]).map
      (fun a => (a.category, a.label)) = [("halving", "Halving 4")] :=
  overlay_emits_single_halving4
    [rataDie 2023 1 1, rataDie 2024 4 19, rataDie 2024 12 31]
    (by decide) (by decide) (by decide)

/-- A pandas DataFrame as used by the Indicator Pipeline: named columns of
float cells (the timestamp index plays no role in `calculate_indicators`).
Python passes the object by reference: column assignment `df[c] = v` mutates
the caller's object in place. -/
structure Frame where
  cols : List (String × List (Option ℝ))

/-- Column lookup `df[name]`; `none` models the `KeyError` pandas raises for
a missing column. -/
def Frame.col? (df : Frame) (name : String) : Option (List (Option ℝ)) :=
  (df.cols.find? (fun p => p.1 == name)).map Prod.snd

/-- Column assignment `df[name] = v`: replaces the column in place if
present, otherwise appends it.  In Python this mutates the object the caller
also holds. -/
def Frame.setCol (df : Frame) (name : String) (v : List (Option ℝ)) : Frame :=
  if df.cols.any (fun p => p.1 == name) then
    ⟨df.cols.map (fun p => if p.1 == name then (name, v) else p)⟩
  else ⟨df.cols ++ [(name, v)]⟩

theorem find?_map_replace {n : String} {v : List (Option ℝ)} :
    ∀ (cols : List (String × List (Option ℝ))),
      cols.any (fun p => p.1 == n) = true →
      ((cols.map (fun p => if p.1 == n then (n, v) else p)).find?
        (fun p => p.1 == n)) = some (n, v) := by
  intro cols
  induction cols with
  | nil => intro h; simp at h
  | cons p rest ih =>
      intro h
      by_cases hp : (p.1 == n) = true
      · simp [List.find?, hp]
      · have hp2 : (p.1 == n) = false := by simpa using hp
        have hrest : rest.any (fun p => p.1 == n) = true := by
          simpa [List.any_cons, hp2] using h
        simpa [List.find?, hp2] using ih hrest

theorem find?_map_replace_ne {n m : String} {v : List (Option ℝ)}
    (hnm : n ≠ m) :
    ∀ (cols : List (String × List (Option ℝ))),
      ((cols.map (fun p => if p.1 == n then (n, v) else p)).find?
        (fun p => p.1 == m)) = (cols.find? (fun p => p.1 == m)) := by
  intro cols
  induction cols with
  | nil => rfl
  | cons p rest ih =>
      by_cases hp : (p.1 == n) = true
      · have hpn : p.1 = n := by simpa using hp
        have h1 : (n == m) = false := by simpa using hnm
        have h2 : (p.1 == m) = false := by rw [hpn]; exact h1
        simpa [List.find?, hp, h1, h2] using ih
      · have hp2 : (p.1 == n) = false := by simpa using hp
        by_cases hpm : (p.1 == m) = true
        · simp [List.find?, hp2, hpm]
        · have hpm2 : (p.1 == m) = false := by simpa using hpm
          simpa [List.find?, hp2, hpm2] using ih

theorem find?_eq_none_of_any_false {n : String}
    {cols : List (String × List (Option ℝ))}
    (h : cols.any (fun p => p.1 == n) = false) :
    cols.find? (fun p => p.1 == n) = none := by
  rw [List.find?_eq_none]
  intro p hp
  have := (List.any_eq_false.1 h) p hp
  simpa using this

/-- Column lookup after a column assignment: the assigned name reads back the
new value; other names are untouched. -/
theorem col?_setCol (df : Frame) (n m : String) (v : List (Option ℝ)) :
    (df.setCol n v).col? m = if n = m then some v else df.col? m := by
  unfold Frame.setCol Frame.col?
  by_cases hany : df.cols.any (fun p => p.1 == n)
  · rw [if_pos hany]
    by_cases hnm : n = m
    · subst hnm
      simp only [if_pos rfl]
      rw [find?_map_replace df.cols hany]
      rfl
    · rw [if_neg hnm]
      rw [find?_map_replace_ne hnm df.cols]
  · rw [if_neg hany]
    by_cases hnm : n = m
    · subst hnm
      simp only [if_pos rfl]
      rw [List.find?_append,
        find?_eq_none_of_any_false (Bool.eq_false_iff.2 hany)]
      simp [List.find?]
    · rw [if_neg hnm]
      rw [List.find?_append]
      cases hfind : df.cols.find? (fun p => p.1 == m) with
      | some q => simp [hfind]
      | none =>
          simp [hfind, List.find?, show (n == m) = false by simpa using hnm]

/-- `calculate_indicators` (src/main.py:189-220).  Python assigns the nine
indicator columns directly on the argument (`df["BB_Upper"] = ...`), so the
caller's DataFrame object is mutated in place; the function then returns
that same object.  We model this by state passing: the first component is
the state of the caller's object after the call (also the return value when
no exception is raised), the second the raised `KeyError`, if any.  The
source re-reads `df["Close"]` for each EMA and for the stochastic call;
those lookups return the original close column because the column names
assigned in between are all distinct from `"Close"` (similarly for
`"High"`/`"Low"`). -/
noncomputable def calculate_indicators (df : Frame) :
    Frame × Option String :=
  match df.col? "Close" with
  | none => (df, some "KeyError: Close")
  | some close =>
    let bb := calculate_bollinger_bands close 20 2
    let df1 := ((df.setCol "BB_Upper" bb.1).setCol "BB_Middle"
      bb.2.1).setCol "BB_Lower" bb.2.2
    let df2 := (((df1.setCol "EMA_13" (calculate_ema close 13)).setCol
      "EMA_21" (calculate_ema close 21)).setCol "EMA_50"
      (calculate_ema close 50)).setCol "EMA_100" (calculate_ema close 100)
    match df2.col? "High" with
    | none => (df2, some "KeyError: High")
    | some high =>
      match df2.col? "Low" with
      | none => (df2, some "KeyError: Low")
      | some low =>
        let st := calculate_stochastic high low close 5 3 3
        ((df2.setCol "Stoch_K" st.1).setCol "Stoch_D" st.2, none)

/-- An empty Bar Series: all five OHLCV columns present, zero rows. -/
def emptyBarFrame : Frame :=
  ⟨[("Open", []), ("High", []), ("Low", []), ("Close", []), ("Volume", [])]⟩

/-- C5 counterexample: (a) on an EMPTY Bar Series (all columns present, zero
rows) the pipeline does NOT fail — it returns the augmented (still empty)
table with all indicator columns, e.g. `Stoch_D`; (b) on a series that has
the close column but lacks `High`, the pipeline DOES fail (pandas
`KeyError`), although the claim says failure happens exactly when the series
is empty or lacks the close column. -/
theorem pipeline_error_condition_counterexample :
    (calculate_indicators emptyBarFrame).2 = none ∧
    (calculate_indicators emptyBarFrame).1.col? "Stoch_D" = some [] ∧
    (calculate_indicators ⟨[("Close", [])]⟩).2 = some "KeyError: High" :=
  ⟨rfl, rfl, rfl⟩

/-- C5 amended: the pipeline raises (a `KeyError`) exactly when one of the
`Close`, `High`, `Low` columns is absent from the input table; an empty but
column-complete Bar Series is not rejected — it yields an augmented empty
table.  (When `High` or `Low` is missing, the error is raised only after the
Bollinger/EMA columns were already assigned to the caller's table.) -/
theorem pipeline_error_iff_missing_column (df : Frame) :
    (calculate_indicators df).2 ≠ none ↔
      (df.col? "Close" = none ∨ df.col? "High" = none ∨
        df.col? "Low" = none) := by
  unfold calculate_indicators
  cases hclose : df.col? "Close" with
  | none => simp [hclose]
  | some close =>
      simp only [col?_setCol]
      cases hhigh : df.col? "High" with
      | none => simp [hclose, hhigh, col?_setCol]
      | some high =>
          cases hlow : df.col? "Low" with
          | none => simp [hclose, hhigh, hlow, col?_setCol]
          | some low => simp [hclose, hhigh, hlow, col?_setCol]

/-- C4 counterexample: on an empty Bar Series the caller's table after the
call is NOT unchanged — the pipeline has added the nine indicator columns to
it in place (14 columns instead of the original 5), and the value it returns
is that same mutated table, not a fresh structure. -/
theorem pipeline_no_mutation_counterexample :
    (calculate_indicators emptyBarFrame).1 ≠ emptyBarFrame ∧
    (calculate_indicators emptyBarFrame).1.cols.map Prod.fst =
      ["Open", "High", "Low", "Close", "Volume", "BB_Upper", "BB_Middle",
        "BB_Lower", "EMA_13", "EMA_21", "EMA_50", "EMA_100", "Stoch_K",
        "Stoch_D"] ∧
    emptyBarFrame.cols.map Prod.fst =
      ["Open", "High", "Low", "Close", "Volume"] := by
  refine ⟨?_, rfl, rfl⟩
  intro h
  have hlen : (calculate_indicators emptyBarFrame).1.cols.length = 14 := rfl
  rw [h] at hlen
  exact absurd hlen (by decide)

/-- C4 amended: for every input table holding the required price columns,
the Indicator Pipeline raises no error but mutates the caller's DataFrame in
place — after the call the caller's table holds the new indicator columns
(e.g. `BB_Upper`), so it differs from the input whenever the input lacked
such a column — and the returned table is that same mutated object, not a
fresh copy (modelled by the state-passing first component of
`calculate_indicators`). -/
theorem pipeline_mutates_in_place (df : Frame)
    (close high low : List (Option ℝ))
    (hclose : df.col? "Close" = some close)
    (hhigh : df.col? "High" = some high)
    (hlow : df.col? "Low" = some low)
    (hbb : df.col? "BB_Upper" = none) :
    (calculate_indicators df).2 = none ∧
    (calculate_indicators df).1.col? "BB_Upper" =
      some (calculate_bollinger_bands close 20 2).1 ∧
    (calculate_indicators df).1 ≠ df := by
  have hmain : (calculate_indicators df).2 = none ∧
      (calculate_indicators df).1.col? "BB_Upper" =
        some (calculate_bollinger_bands close 20 2).1 := by
    unfold calculate_indicators
    rw [hclose]
    simp [col?_setCol, hhigh, hlow]
  refine ⟨hmain.1, hmain.2, ?_⟩
  intro heq
  have h2 := hmain.2
  rw [heq, hbb] at h2
  exact Option.noConfusion h2

/-- Witness for the amended C4 on the empty Bar Series. -/
theorem pipeline_mutates_in_place_witness :
    (calculate_indicators emptyBarFrame).2 = none ∧
    (calculate_indicators emptyBarFrame).1.col? "BB_Upper" =
      some (calculate_bollinger_bands [] 20 2).1 ∧
    (calculate_indicators emptyBarFrame).1 ≠ emptyBarFrame :=
  pipeline_mutates_in_place emptyBarFrame [] [] [] rfl rfl rfl rfl
